import Mathlib

/-!
Verification of the CAM (class-activation-map) reconstruction design of the
`sanad` model-conversion scripts.

The repository (src/scripts/convert_xray_model.py,
src/scripts/convert_xray_with_cam.py) wraps a pretrained DenseNet for ONNX
export and persists its classifier weights so a browser can compute CAM
heatmaps.  The browser-side CAM routines themselves are only documented (as a
printed recipe and in the specification), so they are modelled here from the
spec; the export wrappers and the weight-file layout are embedded from the
Python source.  32-bit floats are modelled as exact rationals; the external
DenseNet feature extractor and the sigmoid are abstract parameters.
-/

namespace Sanad

/-- A feature tensor of shape [C, H, W]: values indexed by total functions,
with the shape carried alongside (entries outside the shape are junk). -/
structure FeatTensor where
  C : ℕ
  H : ℕ
  W : ℕ
  val : ℕ → ℕ → ℕ → ℚ

/-- A class weight vector of length `len`. -/
structure Vec where
  len : ℕ
  val : ℕ → ℚ

/-- A saliency map of shape [H, W]. -/
structure SalMap where
  H : ℕ
  W : ℕ
  val : ℕ → ℕ → ℚ

/-- Error taxonomy of the CAM reconstructor (spec section 7). -/
inductive CamError where
  | dimensionMismatch
  deriving DecidableEq

/-- The weighted channel collapse printed as the browser-side CAM recipe in
convert_xray_with_cam.py (lines 198-203): `CAM[i] = sum(W[i] * F, axis=0)`. -/
def camCore (C : ℕ) (wt : ℕ → ℚ) (f : ℕ → ℕ → ℕ → ℚ) : ℕ → ℕ → ℚ :=
  fun h w => ∑ c in Finset.range C, wt c * f c h w

/-- Modelled from the spec: `compute_cam` (spec section 4.1) is implemented
browser-side and is not part of this repository; only its recipe is printed by
convert_xray_with_cam.py (lines 198-203).  It guards the channel dimension and
then collapses channels by the class weight vector, with no normalization. -/
def compute_cam (features : FeatTensor) (weights : Vec) : Except CamError SalMap :=
  if weights.len = features.C then
    .ok ⟨features.H, features.W, camCore features.C weights.val features.val⟩
  else
    .error .dimensionMismatch

/-- Modelled from the spec: `select_classes` (spec section 4.1) is
browser-side and not part of this repository.  It returns the indices whose
probability strictly exceeds the threshold. -/
def select_classes (probabilities : Vec) (threshold : ℚ) : Finset ℕ :=
  (Finset.range probabilities.len).filter (fun i => threshold < probabilities.val i)

/-- The multiset of in-range values of a saliency map, as a finite set. -/
def mapVals (m : SalMap) : Finset ℚ :=
  ((Finset.range m.H) ×ˢ (Finset.range m.W)).image (fun p => m.val p.1 p.2)

/-- Minimum in-range value of a map (0 for an empty grid). -/
def mapMin (m : SalMap) : ℚ :=
  if h : (mapVals m).Nonempty then (mapVals m).min' h else 0

/-- Maximum in-range value of a map (0 for an empty grid). -/
def mapMax (m : SalMap) : ℚ :=
  if h : (mapVals m).Nonempty then (mapVals m).max' h else 0

/-- Modelled from the spec: `normalize_for_display` (spec section 4.1) is
browser-side and not part of this repository.  It min-max rescales to [0,1],
and a flat map (max = min) yields all zeros. -/
def normalize_for_display (m : SalMap) : SalMap :=
  ⟨m.H, m.W, fun h w =>
    if mapMax m = mapMin m then 0
    else (m.val h w - mapMin m) / (mapMax m - mapMin m)⟩

/-- Clamp a rational to the interval [lo, hi]. -/
def clampQ (v lo hi : ℚ) : ℚ := max lo (min v hi)

/-- Modelled from the spec: half-pixel-centre source coordinate used when
resizing (spec section 4.1, `upsample`), clamped to the valid source-grid
range [0, src-1] (no wraparound, no extrapolation). -/
def srcCoord (src dst i : ℕ) : ℚ :=
  clampQ (((i : ℚ) + 1/2) * src / dst - 1/2) 0 ((src : ℚ) - 1)

/-- Modelled from the spec: `upsample` (spec section 4.1) is browser-side and
not part of this repository; the interpolation kernel is bilinear, the
spec's stated minimal faithful choice (spec section 9). -/
def upsample (m : SalMap) (th tw : ℕ) : SalMap :=
  ⟨th, tw, fun i j =>
    let y := srcCoord m.H th i
    let x := srcCoord m.W tw j
    let y0 := (Int.floor y).toNat
    let x0 := (Int.floor x).toNat
    let y1 := min (y0 + 1) (m.H - 1)
    let x1 := min (x0 + 1) (m.W - 1)
    let fy := y - (y0 : ℚ)
    let fx := x - (x0 : ℚ)
    (1 - fy) * ((1 - fx) * m.val y0 x0 + fx * m.val y0 x1)
      + fy * ((1 - fx) * m.val y1 x0 + fx * m.val y1 x1)⟩

/-- The classifier weight matrix of shape [N, C]
(convert_xray_with_cam.py line 71: `base_model.classifier.weight`). -/
structure WeightMatrix where
  N : ℕ
  C : ℕ
  val : ℕ → ℕ → ℚ

/-- The sequence of 32-bit floats written by
`classifier_weights.astype(np.float32).tofile(weights_path)`
(convert_xray_with_cam.py line 132): numpy writes the array elements in
row-major order with no header or length prefix; each list element here
stands for one 32-bit little-endian float of the file. -/
def weightsFile (w : WeightMatrix) : List ℚ :=
  (List.range w.N).flatMap (fun i => (List.range w.C).map (fun c => w.val i c))

/-- An input image, as a total function from pixel coordinates to values. -/
def Img : Type := ℕ → ℕ → ℚ

/-- The pretrained base model, kept abstract (the spec's external model
provider): `feat` is `base_model.features` producing a [C, H, W] tensor from
an image, and `clsW`, `clsB` are the weight and bias of the final linear
layer `base_model.classifier` ([N, C] and [N]). -/
structure BaseModel where
  C : ℕ
  H : ℕ
  W : ℕ
  N : ℕ
  feat : Img → ℕ → ℕ → ℕ → ℚ
  clsW : ℕ → ℕ → ℚ
  clsB : ℕ → ℚ

/-- Pointwise rectifier, `F.relu`. -/
def relu (v : ℚ) : ℚ := max v 0

/-- DenseNetWithCAM.forward (convert_xray_with_cam.py lines 33-54): scale the
input by 1024, extract features, ReLU, global average pool, flatten, linear
classifier, sigmoid; returns (probs, features_relu).  The sigmoid
`torch.sigmoid` is the abstract parameter `sg`. -/
def DenseNetWithCAM.forward (M : BaseModel) (sg : ℚ → ℚ) (x : Img) :
    (ℕ → ℚ) × (ℕ → ℕ → ℕ → ℚ) :=
  let xs : Img := fun i j => x i j * 1024
  let features := M.feat xs
  let features_relu := fun c h w => relu (features c h w)
  let pooled := fun c =>
    (∑ h in Finset.range M.H, ∑ w in Finset.range M.W, features_relu c h w)
      / ((M.H : ℚ) * (M.W : ℚ))
  let logits := fun i => (∑ c in Finset.range M.C, M.clsW i c * pooled c) + M.clsB i
  let probs := fun i => sg (logits i)
  (probs, features_relu)

/-- DenseNetForExport.forward (convert_xray_model.py lines 27-43): scale the
input by 1024, extract features, ReLU, global average pool, flatten, linear
classifier, sigmoid; returns the probabilities only. -/
def DenseNetForExport.forward (M : BaseModel) (sg : ℚ → ℚ) (x : Img) : ℕ → ℚ :=
  let xscaled : Img := fun i j => x i j * 1024
  let features := M.feat xscaled
  let out1 := fun c h w => relu (features c h w)
  let out2 := fun c =>
    (∑ h in Finset.range M.H, ∑ w in Finset.range M.W, out1 c h w)
      / ((M.H : ℚ) * (M.W : ℚ))
  let out3 := fun i => (∑ c in Finset.range M.C, M.clsW i c * out2 c) + M.clsB i
  fun i => sg (out3 i)

/-- C1: for every feature tensor of shape [C,H,W] and weight vector of length
C, compute_cam returns a map of shape [H,W] whose value at each in-range
position (h,w) is the raw sum over channels of weights[c] * features[c,h,w],
with no normalization applied. -/
theorem compute_cam_ok (t : FeatTensor) (v : Vec) (hlen : v.len = t.C) :
    ∃ m : SalMap, compute_cam t v = .ok m ∧ m.H = t.H ∧ m.W = t.W ∧
      ∀ h w, h < t.H → w < t.W →
        m.val h w = ∑ c in Finset.range t.C, v.val c * t.val c h w := by
  refine ⟨⟨t.H, t.W, camCore t.C v.val t.val⟩, ?_, rfl, rfl, ?_⟩
  · simp [compute_cam, hlen]
  · intro h w _ _
    rfl

/-- Witness for C1 at a concrete 1-channel 2x2 tensor. -/
theorem compute_cam_ok_witness :
    (Vec.len ⟨1, fun _ => 2⟩ = FeatTensor.C ⟨1, 2, 2, fun _ h w => (h : ℚ) + w⟩) ∧
    (∃ m : SalMap,
      compute_cam ⟨1, 2, 2, fun _ h w => (h : ℚ) + w⟩ ⟨1, fun _ => 2⟩ = .ok m ∧
      m.H = 2 ∧ m.W = 2 ∧ ∀ h w, h < 2 → w < 2 →
        m.val h w = ∑ c in Finset.range 1,
          Vec.val ⟨1, fun _ => 2⟩ c *
            FeatTensor.val ⟨1, 2, 2, fun _ h w => (h : ℚ) + w⟩ c h w) :=
  ⟨rfl, compute_cam_ok ⟨1, 2, 2, fun _ h w => (h : ℚ) + w⟩ ⟨1, fun _ => 2⟩ rfl⟩

/-- C2: whenever the weight vector length differs from the tensor's channel
count, compute_cam signals DimensionMismatch (it never truncates, broadcasts,
or returns a map). -/
theorem compute_cam_mismatch (t : FeatTensor) (v : Vec) (hne : v.len ≠ t.C) :
    compute_cam t v = .error .dimensionMismatch := by
  simp [compute_cam, hne]

/-- Witness for C2: 1024-channel features against a 512-length weight
vector. -/
theorem compute_cam_mismatch_witness :
    ((512 : ℕ) ≠ 1024) ∧
    compute_cam ⟨1024, 7, 7, fun _ _ _ => 0⟩ ⟨512, fun _ => 0⟩ =
      .error .dimensionMismatch :=
  ⟨by decide, compute_cam_mismatch ⟨1024, 7, 7, fun _ _ _ => 0⟩ ⟨512, fun _ => 0⟩
    (by decide)⟩

/-- C3: compute_cam is a linear functional of the weight vector: on matching
lengths, the map of a linear combination a*w1 + b*w2 is the pointwise linear
combination of the individual maps. -/
theorem compute_cam_linear (t : FeatTensor) (w1 w2 : Vec) (a b : ℚ)
    (h1 : w1.len = t.C) (h2 : w2.len = t.C) :
    ∃ m m1 m2 : SalMap,
      compute_cam t ⟨t.C, fun c => a * w1.val c + b * w2.val c⟩ = .ok m ∧
      compute_cam t w1 = .ok m1 ∧ compute_cam t w2 = .ok m2 ∧
      ∀ h w, m.val h w = a * m1.val h w + b * m2.val h w := by
  refine ⟨⟨t.H, t.W, camCore t.C (fun c => a * w1.val c + b * w2.val c) t.val⟩,
          ⟨t.H, t.W, camCore t.C w1.val t.val⟩,
          ⟨t.H, t.W, camCore t.C w2.val t.val⟩, ?_, ?_, ?_, ?_⟩
  · simp [compute_cam]
  · simp [compute_cam, h1]
  · simp [compute_cam, h2]
  · intro h w
    simp only [camCore]
    rw [Finset.mul_sum, Finset.mul_sum, ← Finset.sum_add_distrib]
    apply Finset.sum_congr rfl
    intro c _
    ring

/-- Witness for C3 at a concrete 2-channel tensor with a = 3, b = -1. -/
theorem compute_cam_linear_witness :
    (Vec.len ⟨2, fun c => (c : ℚ)⟩ = 2) ∧ (Vec.len ⟨2, fun c => (c : ℚ) + 1⟩ = 2) ∧
    (∃ m m1 m2 : SalMap,
      compute_cam ⟨2, 2, 2, fun c h w => (c : ℚ) + h + w⟩
        ⟨2, fun c => 3 * Vec.val ⟨2, fun c => (c : ℚ)⟩ c +
          (-1) * Vec.val ⟨2, fun c => (c : ℚ) + 1⟩ c⟩ = .ok m ∧
      compute_cam ⟨2, 2, 2, fun c h w => (c : ℚ) + h + w⟩ ⟨2, fun c => (c : ℚ)⟩ = .ok m1 ∧
      compute_cam ⟨2, 2, 2, fun c h w => (c : ℚ) + h + w⟩ ⟨2, fun c => (c : ℚ) + 1⟩ = .ok m2 ∧
      ∀ h w, m.val h w = 3 * m1.val h w + (-1) * m2.val h w) :=
  ⟨rfl, rfl, compute_cam_linear ⟨2, 2, 2, fun c h w => (c : ℚ) + h + w⟩
    ⟨2, fun c => (c : ℚ)⟩ ⟨2, fun c => (c : ℚ) + 1⟩ 3 (-1) rfl rfl⟩

/-- C4: select_classes returns exactly the indices whose probability is
strictly greater than the threshold; an index exactly at the threshold is
excluded, an empty result is an ordinary value, and on probabilities
[0.3, 0.5, 0.5, 0.9] with threshold 0.5 it returns exactly {3}. -/
theorem select_classes_spec :
    (∀ (p : Vec) (t : ℚ) (i : ℕ),
      i ∈ select_classes p t ↔ i < p.len ∧ t < p.val i) ∧
    select_classes
      ⟨4, fun i => if i = 0 then 3/10 else if i = 1 then 5/10
        else if i = 2 then 5/10 else if i = 3 then 9/10 else 0⟩ (5/10) = {3} ∧
    select_classes ⟨2, fun _ => 0⟩ (5/10) = ∅ := by
  refine ⟨?_, ?_, ?_⟩
  · intro p t i
    simp [select_classes, Finset.mem_filter, Finset.mem_range]
  · ext i
    simp only [select_classes, Finset.mem_filter, Finset.mem_range,
      Finset.mem_singleton]
    constructor
    · rintro ⟨hi, hlt⟩
      interval_cases i <;> norm_num at hlt ⊢
    · rintro rfl
      norm_num
  · ext i
    simp only [select_classes, Finset.mem_filter, Finset.mem_range,
      Finset.not_mem_empty, iff_false, not_and]
    intro _
    norm_num

/-- Each in-range entry of a map belongs to its value set. -/
theorem val_mem_mapVals (m : SalMap) (h w : ℕ) (hh : h < m.H) (hw : w < m.W) :
    m.val h w ∈ mapVals m := by
  apply Finset.mem_image.2
  exact ⟨(h, w), Finset.mem_product.2 ⟨Finset.mem_range.2 hh, Finset.mem_range.2 hw⟩, rfl⟩

/-- The map minimum is a lower bound on every in-range entry. -/
theorem mapMin_le_val (m : SalMap) (h w : ℕ) (hh : h < m.H) (hw : w < m.W) :
    mapMin m ≤ m.val h w := by
  have hmem := val_mem_mapVals m h w hh hw
  unfold mapMin
  rw [dif_pos ⟨_, hmem⟩]
  exact Finset.min'_le _ _ hmem

/-- The map maximum is an upper bound on every in-range entry. -/
theorem val_le_mapMax (m : SalMap) (h w : ℕ) (hh : h < m.H) (hw : w < m.W) :
    m.val h w ≤ mapMax m := by
  have hmem := val_mem_mapVals m h w hh hw
  unfold mapMax
  rw [dif_pos ⟨_, hmem⟩]
  exact Finset.le_max' _ _ hmem

/-- C5: normalize_for_display keeps the shape, maps each in-range value v to
(v - min) / (max - min) when max > min — so outputs lie in [0,1] — and maps
every value to exactly 0 when max = min (including an all-zero map), with no
undefined result. -/
theorem normalize_for_display_spec (m : SalMap) (h w : ℕ)
    (hh : h < m.H) (hw : w < m.W) :
    (normalize_for_display m).H = m.H ∧ (normalize_for_display m).W = m.W ∧
    (normalize_for_display m).val h w =
      (if mapMax m = mapMin m then 0
        else (m.val h w - mapMin m) / (mapMax m - mapMin m)) ∧
    0 ≤ (normalize_for_display m).val h w ∧
    (normalize_for_display m).val h w ≤ 1 := by
  refine ⟨rfl, rfl, rfl, ?_, ?_⟩ <;>
  · by_cases hdeg : mapMax m = mapMin m
    · simp [normalize_for_display, hdeg]
    · have hmin := mapMin_le_val m h w hh hw
      have hmax := val_le_mapMax m h w hh hw
      have hlt : mapMin m < mapMax m :=
        lt_of_le_of_ne (le_trans hmin hmax) (fun e => hdeg e.symm)
      simp only [normalize_for_display, if_neg hdeg]
      first
      | exact div_nonneg (by linarith) (by linarith)
      | exact (div_le_one (by linarith)).2 (by linarith)

/-- Witness for C5 at the all-zero 7x7 map, position (0,0). -/
theorem normalize_for_display_spec_witness :
    (0 < 7 ∧ 0 < 7) ∧
    ((normalize_for_display ⟨7, 7, fun _ _ => 0⟩).H = 7 ∧
     (normalize_for_display ⟨7, 7, fun _ _ => 0⟩).W = 7 ∧
     (normalize_for_display ⟨7, 7, fun _ _ => 0⟩).val 0 0 =
       (if mapMax ⟨7, 7, fun _ _ => 0⟩ = mapMin ⟨7, 7, fun _ _ => 0⟩ then 0
         else (SalMap.val ⟨7, 7, fun _ _ => 0⟩ 0 0 - mapMin ⟨7, 7, fun _ _ => 0⟩)
           / (mapMax ⟨7, 7, fun _ _ => 0⟩ - mapMin ⟨7, 7, fun _ _ => 0⟩)) ∧
     0 ≤ (normalize_for_display ⟨7, 7, fun _ _ => 0⟩).val 0 0 ∧
     (normalize_for_display ⟨7, 7, fun _ _ => 0⟩).val 0 0 ≤ 1) :=
  ⟨⟨by decide, by decide⟩,
    normalize_for_display_spec ⟨7, 7, fun _ _ => 0⟩ 0 0 (by decide) (by decide)⟩

/-- Row-major flattening of an [n, C] block has length n * C. -/
theorem weightsFlat_length (n C : ℕ) (f : ℕ → ℕ → ℚ) :
    ((List.range n).flatMap (fun i => (List.range C).map (f i))).length = n * C := by
  induction n with
  | zero => simp
  | succ k ih =>
    rw [List.range_succ, List.flatMap_append, List.length_append, ih]
    simp [Nat.succ_mul]

/-- Row-major indexing: float i*C+c of the flattened block is entry (i,c). -/
theorem weightsFlat_getElem (n C : ℕ) (f : ℕ → ℕ → ℚ) (i c : ℕ)
    (hi : i < n) (hc : c < C) :
    ((List.range n).flatMap (fun i => (List.range C).map (f i)))[i * C + c]? =
      some (f i c) := by
  induction n with
  | zero => omega
  | succ k ih =>
    rw [List.range_succ, List.flatMap_append, List.getElem?_append,
      weightsFlat_length]
    by_cases hik : i < k
    · have h1 : i * C + c < (i + 1) * C := by
        rw [Nat.succ_mul]
        omega
      have h2 : (i + 1) * C ≤ k * C := Nat.mul_le_mul_right C hik
      rw [if_pos (by omega)]
      exact ih hik
    · have hik2 : i = k := by omega
      subst hik2
      rw [if_neg (Nat.not_lt.2 (Nat.le_add_right (i * C) c)),
        Nat.add_sub_cancel_left]
      simp [List.getElem?_map, List.getElem?_range hc]

/-- C7: the persisted classifier weight file is exactly N * C floats in
row-major order with no header: float c of row i (position i*C + c) equals
entry [i][c] of the in-memory [N, C] weight matrix. -/
theorem weightsFile_spec (w : WeightMatrix) :
    (weightsFile w).length = w.N * w.C ∧
    ∀ i c, i < w.N → c < w.C →
      (weightsFile w)[i * w.C + c]? = some (w.val i c) := by
  exact ⟨weightsFlat_length w.N w.C w.val,
    fun i c hi hc => weightsFlat_getElem w.N w.C w.val i c hi hc⟩

/-- Witness for C7 at a concrete 2x3 matrix, row 1, column 2. -/
theorem weightsFile_spec_witness :
    ((weightsFile ⟨2, 3, fun i c => (i : ℚ) + c⟩).length = 2 * 3) ∧
    (1 < 2 ∧ 2 < 3) ∧
    (weightsFile ⟨2, 3, fun i c => (i : ℚ) + c⟩)[1 * 3 + 2]? =
      some (WeightMatrix.val ⟨2, 3, fun i c => (i : ℚ) + c⟩ 1 2) :=
  ⟨(weightsFile_spec ⟨2, 3, fun i c => (i : ℚ) + c⟩).1, ⟨by decide, by decide⟩,
    (weightsFile_spec ⟨2, 3, fun i c => (i : ℚ) + c⟩).2 1 2 (by decide) (by decide)⟩

/-- C8: every element of the feature tensor returned for the CAM computation
(the second output of DenseNetWithCAM.forward) is non-negative, because ReLU
is applied before the features are returned; hence with non-negative weights
the saliency map is non-negative — a negative saliency value can only come
from a negative weight. -/
theorem features_relu_nonneg (M : BaseModel) (sg : ℚ → ℚ) (x : Img) :
    (∀ c h w, 0 ≤ (DenseNetWithCAM.forward M sg x).2 c h w) ∧
    (∀ wt : ℕ → ℚ, (∀ c, 0 ≤ wt c) → ∀ h w,
      0 ≤ camCore M.C wt ((DenseNetWithCAM.forward M sg x).2) h w) := by
  constructor
  · intro c h w
    exact le_max_right _ _
  · intro wt hwt h w
    apply Finset.sum_nonneg
    intro c _
    exact mul_nonneg (hwt c) (le_max_right _ _)

/-- Witness for C8 at a concrete model on a negative-valued input. -/
theorem features_relu_nonneg_witness :
    (∀ c : ℕ, (0 : ℚ) ≤ (fun _ : ℕ => (1 : ℚ)) c) ∧
    (0 ≤ (DenseNetWithCAM.forward
      ⟨1, 1, 1, 1, fun x _ _ _ => x 0 0, fun _ _ => 1, fun _ => 0⟩
      id (fun _ _ => -5)).2 0 0 0) ∧
    (0 ≤ camCore 1 (fun _ => 1) ((DenseNetWithCAM.forward
      ⟨1, 1, 1, 1, fun x _ _ _ => x 0 0, fun _ _ => 1, fun _ => 0⟩
      id (fun _ _ => -5)).2) 0 0) :=
  ⟨fun _ => by norm_num,
    (features_relu_nonneg
      ⟨1, 1, 1, 1, fun x _ _ _ => x 0 0, fun _ _ => 1, fun _ => 0⟩
      id (fun _ _ => -5)).1 0 0 0,
    (features_relu_nonneg
      ⟨1, 1, 1, 1, fun x _ _ _ => x 0 0, fun _ _ => 1, fun _ => 0⟩
      id (fun _ _ => -5)).2 (fun _ => 1) (fun _ => by norm_num) 0 0⟩

/-- C9: the probability vector of DenseNetWithCAM.forward equals the output
of DenseNetForExport.forward on the same base model, sigmoid and input:
adding CAM support does not change the predictions. -/
theorem forward_probs_agree (M : BaseModel) (sg : ℚ → ℚ) (x : Img) (i : ℕ) :
    (DenseNetWithCAM.forward M sg x).1 i = DenseNetForExport.forward M sg x i := rfl

/-- C10: for every input and class index i, probs[i] = sigmoid(bias_i +
spatial mean of the CAM of the returned feature tensor against classifier
row i): the average of class i's saliency map recovers the pre-sigmoid score
up to the bias. -/
theorem cam_mean_recovers_logit (M : BaseModel) (sg : ℚ → ℚ) (x : Img) (i : ℕ) :
    ∃ m : SalMap,
      compute_cam ⟨M.C, M.H, M.W, (DenseNetWithCAM.forward M sg x).2⟩
          ⟨M.C, fun c => M.clsW i c⟩ = .ok m ∧
      (DenseNetWithCAM.forward M sg x).1 i =
        sg (M.clsB i +
          (∑ h in Finset.range M.H, ∑ w in Finset.range M.W, m.val h w)
            / ((M.H : ℚ) * (M.W : ℚ))) := by
  refine ⟨⟨M.H, M.W, camCore M.C (fun c => M.clsW i c)
    ((DenseNetWithCAM.forward M sg x).2)⟩, by simp [compute_cam], ?_⟩
  show sg ((∑ c in Finset.range M.C, M.clsW i c *
      ((∑ h in Finset.range M.H, ∑ w in Finset.range M.W,
        relu (M.feat (fun a b => x a b * 1024) c h w)) / ((M.H : ℚ) * (M.W : ℚ))))
        + M.clsB i)
    = sg (M.clsB i +
      (∑ h in Finset.range M.H, ∑ w in Finset.range M.W,
        ∑ c in Finset.range M.C,
          M.clsW i c * relu (M.feat (fun a b => x a b * 1024) c h w))
        / ((M.H : ℚ) * (M.W : ℚ)))
  have key : (∑ c in Finset.range M.C, M.clsW i c *
      ((∑ h in Finset.range M.H, ∑ w in Finset.range M.W,
        relu (M.feat (fun a b => x a b * 1024) c h w)) / ((M.H : ℚ) * (M.W : ℚ))))
        + M.clsB i
    = M.clsB i +
      (∑ h in Finset.range M.H, ∑ w in Finset.range M.W,
        ∑ c in Finset.range M.C,
          M.clsW i c * relu (M.feat (fun a b => x a b * 1024) c h w))
        / ((M.H : ℚ) * (M.W : ℚ)) := by
    rw [add_comm]
    congr 1
    simp only [← mul_div_assoc, ← Finset.sum_div]
    congr 1
    simp only [Finset.mul_sum]
    rw [Finset.sum_comm]
    exact Finset.sum_congr rfl fun h _ => Finset.sum_comm
  exact congrArg sg key

/-- Sample coordinates are never negative (lower clamp). -/
theorem srcCoord_nonneg (src dst i : ℕ) : 0 ≤ srcCoord src dst i :=
  le_max_left _ _

/-- Sample coordinates never pass the last source cell (upper clamp). -/
theorem srcCoord_le (src dst i : ℕ) (hsrc : 0 < src) :
    srcCoord src dst i ≤ (src : ℚ) - 1 := by
  have h1 : (1 : ℚ) ≤ src := by exact_mod_cast hsrc
  exact max_le (by linarith) (min_le_right _ _)

/-- With equal source and target size, the sample coordinate is the index. -/
theorem srcCoord_self (n i : ℕ) (hi : i < n) : srcCoord n n i = i := by
  have hn0 : 0 < n := Nat.lt_of_le_of_lt (Nat.zero_le i) hi
  have hn : ((n : ℚ)) ≠ 0 := ne_of_gt (by exact_mod_cast hn0)
  have key : ((i : ℚ) + 1/2) * n / n - 1/2 = i := by
    field_simp
    ring
  have h1 : (i : ℚ) ≤ (n : ℚ) - 1 := by
    have h2 : (i : ℚ) + 1 ≤ n := by exact_mod_cast hi
    linarith
  unfold srcCoord clampQ
  rw [key, min_eq_left h1, max_eq_right (Nat.cast_nonneg i)]

/-- The floor index does not pass the sample coordinate. -/
theorem toNat_floor_le_self (y : ℚ) (hy : 0 ≤ y) :
    ((Int.floor y).toNat : ℚ) ≤ y := by
  have h0 : 0 ≤ Int.floor y := Int.floor_nonneg.2 hy
  have h1 : ((Int.floor y).toNat : ℤ) = Int.floor y := Int.toNat_of_nonneg h0
  have h2 : ((Int.floor y).toNat : ℚ) = ((Int.floor y : ℤ) : ℚ) := by
    exact_mod_cast congrArg (fun z : ℤ => (z : ℚ)) h1
  rw [h2]
  exact Int.floor_le y

/-- The fractional part at the floor index is at most 1. -/
theorem self_sub_toNat_floor_le_one (y : ℚ) (hy : 0 ≤ y) :
    y - ((Int.floor y).toNat : ℚ) ≤ 1 := by
  have h0 : 0 ≤ Int.floor y := Int.floor_nonneg.2 hy
  have h1 : ((Int.floor y).toNat : ℤ) = Int.floor y := Int.toNat_of_nonneg h0
  have h2 : ((Int.floor y).toNat : ℚ) = ((Int.floor y : ℤ) : ℚ) := by
    exact_mod_cast congrArg (fun z : ℤ => (z : ℚ)) h1
  have h3 := Int.lt_floor_add_one y
  rw [h2]
  linarith

/-- A clamped coordinate floors to a valid source row/column index. -/
theorem toNat_floor_lt (y : ℚ) (src : ℕ) (hy : 0 ≤ y)
    (hle : y ≤ (src : ℚ) - 1) : (Int.floor y).toNat < src := by
  have h0 : 0 ≤ Int.floor y := Int.floor_nonneg.2 hy
  have hcast : ((src : ℚ) - 1) = (((src : ℤ) - 1 : ℤ) : ℚ) := by
    push_cast
    ring
  have h3 : Int.floor y ≤ (src : ℤ) - 1 := by
    have h4 := Int.floor_le_floor hle
    rw [hcast, Int.floor_intCast] at h4
    exact h4
  omega

/-- A convex combination of two values of [lo, hi] stays in [lo, hi]. -/
theorem combo_le (lo hi a b t : ℚ) (ha : lo ≤ a) (ha2 : a ≤ hi) (hb : lo ≤ b)
    (hb2 : b ≤ hi) (ht : 0 ≤ t) (ht2 : t ≤ 1) :
    lo ≤ (1 - t) * a + t * b ∧ (1 - t) * a + t * b ≤ hi := by
  constructor <;> nlinarith

/-- Upsampling to the source dimensions is the identity on in-range cells. -/
theorem upsample_self_apply (m : SalMap) (i j : ℕ) (hi : i < m.H)
    (hj : j < m.W) : (upsample m m.H m.W).val i j = m.val i j := by
  have hy := srcCoord_self m.H i hi
  have hx := srcCoord_self m.W j hj
  simp only [upsample, hy, hx, Int.floor_natCast, Int.toNat_natCast, sub_self,
    sub_zero, one_mul, zero_mul, mul_zero, add_zero, mul_one]

/-- Every upsampled value is a convex combination of source values, hence
stays between the source minimum and maximum (clamped sampling can neither
wrap around nor extrapolate past the edge values). -/
theorem upsample_val_bounds (m : SalMap) (th tw i j : ℕ) (hH : 0 < m.H)
    (hW : 0 < m.W) :
    mapMin m ≤ (upsample m th tw).val i j ∧
      (upsample m th tw).val i j ≤ mapMax m := by
  simp only [upsample]
  set y := srcCoord m.H th i with hydef
  set x := srcCoord m.W tw j with hxdef
  have hy0 : 0 ≤ y := srcCoord_nonneg m.H th i
  have hy1 : y ≤ (m.H : ℚ) - 1 := srcCoord_le m.H th i hH
  have hx0 : 0 ≤ x := srcCoord_nonneg m.W tw j
  have hx1 : x ≤ (m.W : ℚ) - 1 := srcCoord_le m.W tw j hW
  have hyi : (Int.floor y).toNat < m.H := toNat_floor_lt y m.H hy0 hy1
  have hxi : (Int.floor x).toNat < m.W := toNat_floor_lt x m.W hx0 hx1
  have hyi2 : min ((Int.floor y).toNat + 1) (m.H - 1) < m.H := by omega
  have hxi2 : min ((Int.floor x).toNat + 1) (m.W - 1) < m.W := by omega
  have hfy0 : 0 ≤ y - ((Int.floor y).toNat : ℚ) := by
    have := toNat_floor_le_self y hy0
    linarith
  have hfy1 : y - ((Int.floor y).toNat : ℚ) ≤ 1 := self_sub_toNat_floor_le_one y hy0
  have hfx0 : 0 ≤ x - ((Int.floor x).toNat : ℚ) := by
    have := toNat_floor_le_self x hx0
    linarith
  have hfx1 : x - ((Int.floor x).toNat : ℚ) ≤ 1 := self_sub_toNat_floor_le_one x hx0
  have hrow0 := combo_le (mapMin m) (mapMax m)
    (m.val ((Int.floor y).toNat) ((Int.floor x).toNat))
    (m.val ((Int.floor y).toNat) (min ((Int.floor x).toNat + 1) (m.W - 1)))
    (x - ((Int.floor x).toNat : ℚ))
    (mapMin_le_val m _ _ hyi hxi) (val_le_mapMax m _ _ hyi hxi)
    (mapMin_le_val m _ _ hyi hxi2) (val_le_mapMax m _ _ hyi hxi2) hfx0 hfx1
  have hrow1 := combo_le (mapMin m) (mapMax m)
    (m.val (min ((Int.floor y).toNat + 1) (m.H - 1)) ((Int.floor x).toNat))
    (m.val (min ((Int.floor y).toNat + 1) (m.H - 1))
      (min ((Int.floor x).toNat + 1) (m.W - 1)))
    (x - ((Int.floor x).toNat : ℚ))
    (mapMin_le_val m _ _ hyi2 hxi) (val_le_mapMax m _ _ hyi2 hxi)
    (mapMin_le_val m _ _ hyi2 hxi2) (val_le_mapMax m _ _ hyi2 hxi2) hfx0 hfx1
  exact combo_le (mapMin m) (mapMax m) _ _ (y - ((Int.floor y).toNat : ℚ))
    hrow0.1 hrow0.2 hrow1.1 hrow1.2 hfy0 hfy1

/-- C6: upsampling a map to its own dimensions keeps the shape and returns
the original values unchanged (exactly, over exact rationals); and for any
target dimensions the clamped sampling keeps every output value between the
source minimum and maximum (no wraparound, no extrapolation past the edge). -/
theorem upsample_spec (m : SalMap) :
    ((upsample m m.H m.W).H = m.H ∧ (upsample m m.H m.W).W = m.W) ∧
    (∀ i j, i < m.H → j < m.W → (upsample m m.H m.W).val i j = m.val i j) ∧
    (∀ th tw i j, 0 < m.H → 0 < m.W →
      mapMin m ≤ (upsample m th tw).val i j ∧
        (upsample m th tw).val i j ≤ mapMax m) :=
  ⟨⟨rfl, rfl⟩, fun i j hi hj => upsample_self_apply m i j hi hj,
    fun th tw i j hH hW => upsample_val_bounds m th tw i j hH hW⟩

/-- Witness for C6 at a concrete 2x2 map: identity at (0,1), and bounds of a
4x4 upsample at its corner cell. -/
theorem upsample_spec_witness :
    (0 < 2 ∧ 1 < 2) ∧
    ((upsample ⟨2, 2, fun h w => (h : ℚ) + w⟩ 2 2).val 0 1 =
      SalMap.val ⟨2, 2, fun h w => (h : ℚ) + w⟩ 0 1) ∧
    (mapMin ⟨2, 2, fun h w => (h : ℚ) + w⟩ ≤
        (upsample ⟨2, 2, fun h w => (h : ℚ) + w⟩ 4 4).val 3 3 ∧
      (upsample ⟨2, 2, fun h w => (h : ℚ) + w⟩ 4 4).val 3 3 ≤
        mapMax ⟨2, 2, fun h w => (h : ℚ) + w⟩) :=
  ⟨⟨by decide, by decide⟩,
    (upsample_spec ⟨2, 2, fun h w => (h : ℚ) + w⟩).2.1 0 1 (by decide) (by decide),
    (upsample_spec ⟨2, 2, fun h w => (h : ℚ) + w⟩).2.2 4 4 3 3 (by decide) (by decide)⟩

end Sanad
